import Mathlib

/-!
Verification of the extraction-and-normalization pipeline of
`src/utils/documentParser.js` (JSON_CONVERTER).

The JavaScript source is shallowly embedded:

* JavaScript values that can flow through the pipeline (parsed JSON,
  records, cell values) are modelled by the inductive type `JVal`.
  JSON/JS numbers are modelled as integers (`Int`); float formatting is
  out of scope of the claims treated here.
* A JS object used as a record is modelled as an insertion-ordered
  association list `Record = List (String × JVal)`; `insertKV` models
  `obj[k] = v` (an existing key keeps its position and is overwritten,
  a new key is appended), `assignAll` models `Object.assign`.
* Exceptions (`Object.entries(null)` throwing `TypeError`, and the
  `throw` in `parseDocument`) are modelled with `Option`/`Except`.
-/

/-- A JavaScript/JSON value as it occurs in the parser pipeline.
Numbers are modelled as integers. -/
inductive JVal where
  | null : JVal
  | bool : Bool → JVal
  | int : Int → JVal
  | str : String → JVal
  | arr : List JVal → JVal
  | obj : List (String × JVal) → JVal

/-- A record: a JS object, modelled as an insertion-ordered association
list.  Keys are unique in every record the code builds (`insertKV`
maintains this). -/
abbrev Record := List (String × JVal)

/- Size measures (mutually with the nested lists), used as termination
measures for the recursive functions over `JVal`. -/
mutual
def jsize : JVal → Nat
  | .null => 1
  | .bool _ => 1
  | .int _ => 1
  | .str _ => 1
  | .arr xs => 1 + lsize xs
  | .obj fs => 1 + psize fs

def lsize : List JVal → Nat
  | [] => 0
  | x :: xs => jsize x + 1 + lsize xs

def psize : List (String × JVal) → Nat
  | [] => 0
  | (_, v) :: rest => jsize v + 1 + psize rest
end

/- Structural (boolean) equality on `JVal`; `deriving DecidableEq` is
not available for this nested inductive, so it is defined by hand and
proved lawful below. -/
mutual
def beqJ : JVal → JVal → Bool
  | .null, .null => true
  | .bool a, .bool b => a == b
  | .int a, .int b => a == b
  | .str a, .str b => a == b
  | .arr xs, .arr ys => beqLJ xs ys
  | .obj fs, .obj gs => beqPJ fs gs
  | _, _ => false

def beqLJ : List JVal → List JVal → Bool
  | [], [] => true
  | x :: xs, y :: ys => beqJ x y && beqLJ xs ys
  | _, _ => false

def beqPJ : List (String × JVal) → List (String × JVal) → Bool
  | [], [] => true
  | (k, v) :: fs, (k2, v2) :: gs => k == k2 && beqJ v v2 && beqPJ fs gs
  | _, _ => false
end

theorem beq_iff_eq_main :
    ∀ n : Nat,
      (∀ a b : JVal, sizeOf a ≤ n → (beqJ a b = true ↔ a = b)) ∧
      (∀ xs ys : List JVal, sizeOf xs ≤ n → (beqLJ xs ys = true ↔ xs = ys)) ∧
      (∀ fs gs : List (String × JVal), sizeOf fs ≤ n →
        (beqPJ fs gs = true ↔ fs = gs)) := by
  intro n
  induction n using Nat.strong_induction_on with
  | _ n ih =>
    refine ⟨fun a b hs => ?_, fun xs ys hs => ?_, fun fs gs hs => ?_⟩
    · cases a <;> cases b <;> (try simp at hs) <;> rw [beqJ.eq_def] <;> simp
      case arr.arr xs ys =>
        exact (ih (n - 1) (by omega)).2.1 xs ys (by omega)
      case obj.obj fs gs =>
        exact (ih (n - 1) (by omega)).2.2 fs gs (by omega)
    · cases xs <;> cases ys <;> (try simp at hs) <;> rw [beqLJ.eq_def] <;> simp
      case cons.cons x xs y ys =>
        have h1 := (ih (n - 1) (by omega)).1 x y (by omega)
        have h2 := (ih (n - 1) (by omega)).2.1 xs ys (by omega)
        rw [h1, h2]
    · cases fs with
      | nil =>
        cases gs with
        | nil => rw [beqPJ.eq_def]; simp
        | cons q gs => rw [beqPJ.eq_def]; simp
      | cons p fs =>
        obtain ⟨k, v⟩ := p
        cases gs with
        | nil => rw [beqPJ.eq_def]; simp
        | cons q gs =>
          obtain ⟨k2, v2⟩ := q
          simp at hs
          rw [beqPJ.eq_def]
          have h1 := (ih (n - 1) (by omega)).1 v v2 (by omega)
          have h2 := (ih (n - 1) (by omega)).2.2 fs gs (by omega)
          simp [h1, h2, and_assoc]

instance : DecidableEq JVal := fun a b =>
  decidable_of_iff (beqJ a b = true) ((beq_iff_eq_main (sizeOf a)).1 a b le_rfl)

/-- JS truthiness of a `JVal` (`Boolean(v)`): `null`, `false`, `0` and
`""` are falsy, everything else (including any object or array) is
truthy. -/
def truthy : JVal → Bool
  | .null => false
  | .bool b => b
  | .int n => n != 0
  | .str s => s != ""
  | .arr _ => true
  | .obj _ => true

/-- `obj[k] = v` on an insertion-ordered object: overwrite in place if
the key exists, otherwise append. -/
def insertKV (r : Record) (k : String) (v : JVal) : Record :=
  if r.any (fun p => p.1 = k) then
    r.map (fun p => if p.1 = k then (k, v) else p)
  else r ++ [(k, v)]

/-- `Object.assign(r, src)`: insert every pair of `src`, in order. -/
def assignAll (r src : Record) : Record :=
  src.foldl (fun acc p => insertKV acc p.1 p.2) r

/-- Property lookup `r[k]` (`some v` if present, `none` = `undefined`). -/
def jsGet (r : Record) (k : String) : Option JVal :=
  (r.find? (fun p => p.1 = k)).map (fun p => p.2)

/-- `r[k] || ''` as it appears in `mergeEntries` (line 154): a missing
or falsy value becomes the empty string. -/
def jsGetOr (r : Record) (k : String) : JVal :=
  match jsGet r k with
  | some v => if truthy v then v else .str ""
  | none => .str ""

/- `String(v)` for the values reachable in this code:
`Array.prototype.toString` joins elements with `","`, stringifying
`null` elements as `""`; plain objects print `"[object Object]"`. -/
mutual
def jsString : JVal → String
  | .null => "null"
  | .bool b => cond b "true" "false"
  | .int n => toString n
  | .str s => s
  | .obj _ => "[object Object]"
  | .arr xs => jsStringArr xs

def jsStringArr : List JVal → String
  | [] => ""
  | [.null] => ""
  | [x] => jsString x
  | .null :: xs => "," ++ jsStringArr xs
  | x :: xs => jsString x ++ "," ++ jsStringArr xs
end

/-- `prefix ? `${prefix}_${key}` : key` (line 82): the empty string is
falsy. -/
def joinKey (pfx key : String) : String :=
  if pfx = "" then key else pfx ++ "_" ++ key

/-- `typeof v === 'object'` — true for objects, arrays and `null`. -/
def isObjLike : JVal → Bool
  | .obj _ => true
  | .arr _ => true
  | .null => true
  | _ => false

/-- `value.map(item => String(item || '')).join(', ')` (line 94):
falsy items (`null`, `false`, `0`, `""`) contribute the empty string. -/
def joinScalars (xs : List JVal) : String :=
  String.intercalate ", " (xs.map (fun item => if truthy item then jsString item else ""))

/-- `Object.entries` of an array: index keys `"0"`, `"1"`, … . -/
def enumJ : List JVal → Nat → List (String × JVal)
  | [], _ => []
  | x :: xs, i => (toString i, x) :: enumJ xs (i + 1)

theorem psize_enumJ (xs : List JVal) : ∀ i, psize (enumJ xs i) = lsize xs := by
  induction xs with
  | nil => intro i; simp [enumJ, psize, lsize]
  | cons x xs ih => intro i; simp [enumJ, psize, lsize, ih]

/-- `flattenObject` applied to a string: `Object.entries` of a string
enumerates its characters under index keys; each single-character value
is a string scalar, so it is stored via `String(value)`. -/
def flattenStrChars : List Char → Nat → String → Record → Record
  | [], _, _, acc => acc
  | c :: cs, i, pfx, acc =>
    flattenStrChars cs (i + 1) pfx
      (insertKV acc (joinKey pfx (toString i)) (.str (String.singleton c)))

mutual
/-- The loop body of `flattenObject` (lines 81–99): iterate the entry
list, dispatching on each value. -/
def flattenEntries : List (String × JVal) → String → Record → Option Record
  | [], _, acc => some acc
  | (key, .null) :: rest, pfx, acc =>
    -- line 84–85: null/undefined values flatten to ''
    flattenEntries rest pfx (insertKV acc (joinKey pfx key) (.str ""))
  | (key, .obj fs) :: rest, pfx, acc =>
    -- line 86–87: non-array objects are flattened recursively and merged
    match flattenObject (.obj fs) (joinKey pfx key) with
    | none => none
    | some sub => flattenEntries rest pfx (assignAll acc sub)
  | (key, .arr (x :: tl)) :: rest, pfx, acc =>
    -- line 88–95
    if isObjLike x then
      -- line 89–92: first element of object type ⇒ per-item flattening
      match flattenItems (x :: tl) (joinKey pfx key) 0 acc with
      | none => none
      | some acc2 => flattenEntries rest pfx acc2
    else
      -- line 93–94: comma-space join
      flattenEntries rest pfx (insertKV acc (joinKey pfx key) (.str (joinScalars (x :: tl))))
  | (key, .arr []) :: rest, pfx, acc =>
    -- line 88, 93–94: `value.length > 0` fails, join of [] is ''
    flattenEntries rest pfx (insertKV acc (joinKey pfx key) (.str (joinScalars [])))
  | (key, .bool b) :: rest, pfx, acc =>
    -- line 96–97: other scalars stringify
    flattenEntries rest pfx (insertKV acc (joinKey pfx key) (.str (jsString (.bool b))))
  | (key, .int n) :: rest, pfx, acc =>
    flattenEntries rest pfx (insertKV acc (joinKey pfx key) (.str (jsString (.int n))))
  | (key, .str s) :: rest, pfx, acc =>
    flattenEntries rest pfx (insertKV acc (joinKey pfx key) (.str (jsString (.str s))))
termination_by es _ _ => psize es
decreasing_by all_goals simp [psize, jsize, lsize, psize_enumJ] <;> omega

/-- `value.forEach((item, index) => Object.assign(flattened,
flattenObject(item, newKey_index)))` (lines 90–92). -/
def flattenItems : List JVal → String → Nat → Record → Option Record
  | [], _, _, acc => some acc
  | item :: rest, newKey, i, acc =>
    match flattenObject item (newKey ++ "_" ++ toString i) with
    | none => none
    | some sub => flattenItems rest newKey (i + 1) (assignAll acc sub)
termination_by xs _ _ _ => lsize xs
decreasing_by all_goals simp [psize, jsize, lsize, psize_enumJ] <;> omega

/-- `flattenObject(obj, prefix)` (lines 78–102).  `Object.entries`
dispatch: `null` throws a `TypeError` (modelled `none`); arrays and
strings enumerate under index keys; numbers and booleans have no
entries. -/
def flattenObject : JVal → String → Option Record
  | .null, _ => none
  | .obj fs, pfx => flattenEntries fs pfx []
  | .arr xs, pfx => flattenEntries (enumJ xs 0) pfx []
  | .str s, pfx => some (flattenStrChars s.data 0 pfx [])
  | _, _ => some []
termination_by v _ => jsize v
decreasing_by all_goals simp [psize, jsize, lsize, psize_enumJ] <;> omega
end

/-- `String(header).toLowerCase()` — ASCII lower-casing. -/
def lowerStr (s : String) : String :=
  ⟨s.data.map Char.toLower⟩

/-- `row[index]` for an arbitrary row value.  Property access on `null`
throws a `TypeError` (outer `none`); on an array it is element lookup, on
a string character lookup, on an object numeric-string property lookup,
and on a number or boolean it yields `undefined` (inner `none`). -/
def jsIndex : JVal → Nat → Option (Option JVal)
  | .null, _ => none
  | .arr xs, i => some (xs.get? i)
  | .str s, i => some ((s.data.get? i).map (fun c => .str (String.singleton c)))
  | .obj fs, i => some (jsGet fs (toString i))
  | _, _ => some none

/-- `x || ''` on a possibly-undefined value. -/
def orEmptyStr : Option JVal → JVal
  | some v => if truthy v then v else .str ""
  | none => .str ""

/-- One row of the tabular branch (lines 112–118):
`obj[String(header).toLowerCase()] = row[index] || ''`.  A `null` row
makes the first `row[index]` access throw (`none`); with zero headers
the loop body never runs and no access happens. -/
def tabularRowGo : List JVal → JVal → Nat → Record → Option Record
  | [], _, _, acc => some acc
  | h :: hs, row, i, acc =>
    match jsIndex row i with
    | none => none
    | some cell =>
      tabularRowGo hs row (i + 1)
        (insertKV acc (lowerStr (jsString h)) (orEmptyStr cell))

def tabularRow (headers : List JVal) (row : JVal) : Option Record :=
  tabularRowGo headers row 0 []

/-- `data.map(entry => ...)` over a fallible per-entry function: a
thrown `TypeError` (`none`) aborts the whole map. -/
def mapOption : List JVal → (JVal → Option Record) → Option (List Record)
  | [], _ => some []
  | a :: l, f =>
    match f a with
    | none => none
    | some r =>
      match mapOption l f with
      | none => none
      | some rs => some (r :: rs)

/-- `normalizeData(data)` (lines 104–128).  `none` models a thrown
`TypeError` escaping from `flattenObject`. -/
def normalizeData (data : JVal) : Option (List Record) :=
  -- lines 105–107: wrap a non-array in a one-element array
  let dataArr : List JVal := match data with | .arr xs => xs | v => [v]
  match dataArr with
  | .arr headers :: rows =>
    -- lines 110–119: table-like data (first element is an array); a row
    -- on which `row[index]` throws aborts the whole map
    mapOption rows (tabularRow headers)
  | entries =>
    -- lines 122–127
    mapOption entries (fun entry =>
      match entry with
      | .obj fs => flattenObject (.obj fs) ""
      | .arr xs => flattenObject (.arr xs) ""
      | v => some [("value", .str (jsString v))])

/-! ## Deduplicator and schema merger (lines 130–158) -/

/-- `removeDuplicates` (lines 130–138).  The JS code deduplicates via a
`Set` of `JSON.stringify(entry)` strings; on records, serialized
identity coincides with structural equality including key order, so
`seen` is modelled as a list of records and membership as structural
equality. -/
def removeDuplicatesGo : List Record → List Record → List Record
  | _, [] => []
  | seen, e :: rest =>
    if e ∈ seen then removeDuplicatesGo seen rest
    else e :: removeDuplicatesGo (e :: seen) rest

def removeDuplicates (entries : List Record) : List Record :=
  removeDuplicatesGo [] entries

/-- `Set.add`: insertion-ordered, ignores keys already present. -/
def addKey (ks : List String) (k : String) : List String :=
  if k ∈ ks then ks else ks ++ [k]

/-- `Object.keys(entry).forEach(key => allKeys.add(key))` (line 147). -/
def addRecordKeys (ks : List String) (e : Record) : List String :=
  e.foldl (fun acc p => addKey acc p.1) ks

/-- `allKeys` (lines 145–148): the union of all keys across entries, in
first-encounter order. -/
def allKeys (entries : List Record) : List String :=
  entries.foldl addRecordKeys []

/-- The padding loop of `mergeEntries` (lines 152–156):
`normalized[key] = entry[key] || ''` for every key of `allKeys`. -/
def padRecordGo : List String → Record → Record → Record
  | [], _, acc => acc
  | k :: ks, e, acc => padRecordGo ks e (insertKV acc k (jsGetOr e k))

def padRecord (ks : List String) (e : Record) : Record :=
  padRecordGo ks e []

/-- `mergeEntries` (lines 140–158). -/
def mergeEntries (entries : List Record) : List Record :=
  let uniqueEntries := removeDuplicates entries
  let ks := allKeys uniqueEntries
  uniqueEntries.map (fun entry => padRecord ks entry)

/-- Specification-level description of deduplication: keep the first
occurrence of each record, drop all later structurally-equal ones,
preserving first-occurrence order. -/
def keepFirst : List Record → List Record
  | [] => []
  | e :: rest => e :: keepFirst (rest.filter (fun x => x ≠ e))
termination_by l => l.length
decreasing_by
  simp only [List.length_cons]
  exact Nat.lt_succ_of_le (List.length_filter_le _ _)

/-! ## Key-value block extractor (lines 37–76) -/

/-- The JS `\s` class / `String.prototype.trim`, restricted to the
ASCII whitespace characters that can occur in this pipeline's text. -/
def isWsChar (c : Char) : Bool :=
  c = ' ' || c = '\t' || c = '\n' || c = '\r' || c = Char.ofNat 11 || c = Char.ofNat 12

/-- `String.prototype.trim`. -/
def trimL (cs : List Char) : List Char :=
  ((cs.dropWhile isWsChar).reverse.dropWhile isWsChar).reverse

def trimS (s : String) : String :=
  ⟨trimL s.data⟩

/-- Index of the last newline in a character run, if any. -/
def lastNewlinePos : List Char → Option Nat
  | [] => none
  | c :: rest =>
    match lastNewlinePos rest with
    | some j => some (j + 1)
    | none => if c = '\n' then some 0 else none

/-- The leading `\r?\n` of a blank-line separator unit. -/
def afterNewline (cs : List Char) : Option (List Char) :=
  match cs with
  | '\r' :: '\n' :: rest => some rest
  | '\n' :: rest => some rest
  | _ => none

/-- One `\r?\n\s*\r?\n` separator unit of the block-splitting regex
(line 39).  The greedy `\s*` with backtracking consumes up to the last
newline of the maximal whitespace run. -/
def matchBlankUnit (cs : List Char) : Option (List Char) :=
  match afterNewline cs with
  | none => none
  | some rest =>
    match lastNewlinePos (rest.takeWhile isWsChar) with
    | none => none
    | some j => some (rest.drop (j + 1))

/-- One separator unit of `(?:\r?\n\s*\r?\n|\{|\}|\[|\])+` (line 39). -/
def sepUnit (cs : List Char) : Option (List Char) :=
  match cs with
  | '{' :: r => some r
  | '}' :: r => some r
  | '[' :: r => some r
  | ']' :: r => some r
  | _ => matchBlankUnit cs

/-- Greedily consume further separator units (the `+` of the regex).
Fuelled structural recursion: every unit consumes at least one
character, so `length + 1` fuel never runs out. -/
def sepUnitsMore : Nat → List Char → List Char
  | 0, cs => cs
  | fuel + 1, cs =>
    match sepUnit cs with
    | none => cs
    | some r => sepUnitsMore fuel r

/-- A maximal separator match of the separator regex starting at the
current position, if any. -/
def sepConsume (cs : List Char) : Option (List Char) :=
  match sepUnit cs with
  | none => none
  | some r => some (sepUnitsMore (r.length + 1) r)

/-- `text.split(/(?:\r?\n\s*\r?\n|\{|\}|\[|\])+/)` (line 39): pieces of
the text between maximal separator matches (empty pieces included, as in
JS).  Fuelled like `sepUnitsMore`: every step consumes a character. -/
def splitBlocksGo : Nat → List Char → List Char → List String
  | 0, _, acc => [⟨acc.reverse⟩]
  | fuel + 1, cs, acc =>
    match cs with
    | [] => [⟨acc.reverse⟩]
    | c :: rest =>
      match sepConsume (c :: rest) with
      | some out => ⟨acc.reverse⟩ :: splitBlocksGo fuel out []
      | none => splitBlocksGo fuel rest (c :: acc)

def splitBlocks (s : String) : List String :=
  splitBlocksGo (s.data.length + 1) s.data []

/-- `block.split(/[\n;]+/)` (line 43). -/
def isLineSep (c : Char) : Bool := c = '\n' || c = ';'

def splitLinesGo : Nat → List Char → List Char → List String
  | 0, _, acc => [⟨acc.reverse⟩]
  | fuel + 1, cs, acc =>
    match cs with
    | [] => [⟨acc.reverse⟩]
    | c :: rest =>
      if isLineSep c then
        ⟨acc.reverse⟩ :: splitLinesGo fuel (rest.dropWhile isLineSep) []
      else
        splitLinesGo fuel rest (c :: acc)

def splitLines (s : String) : List String :=
  splitLinesGo (s.data.length + 1) s.data []

/-- Split a line at its first `:` or `=` (the regex
`^([^:=]+)[:=]\s*(.+)$`, line 49): `[^:=]+` runs to the first of the
two separator characters. -/
def breakAtColon : List Char → Option (List Char × List Char)
  | [] => none
  | c :: rest =>
    if c = ':' || c = '=' then some ([], rest)
    else (breakAtColon rest).map (fun p => (c :: p.1, p.2))

/-- The line match of line 49.  Returns the raw key and value capture
groups.  In `(.+)$` the dot excludes line terminators and `$` anchors
the end of the input, so once the value region contains a carriage
return the regex cannot match at all (no choice of `\s*` helps, since
`\r` must still be spanned by `.+`): a CRLF-terminated line is dropped
entirely.  (When everything after the separator is whitespace, the JS
regex still matches — with a whitespace-only value that `cleanValue`
then empties, so the pair is discarded either way; this model returns
`none` directly in that case.) -/
def matchLine (line : String) : Option (String × String) :=
  match breakAtColon line.data with
  | none => none
  | some ([], _) => none
  | some (pre, rest) =>
    let v := rest.dropWhile isWsChar
    if v.isEmpty || v.contains '\r' then none else some (⟨pre⟩, ⟨v⟩)

/-- `\w` of JS regexes: ASCII letters, digits and underscore. -/
def isWordChar (c : Char) : Bool := c.isAlphanum || c = '_'

/-- The two quote characters `'` and `"`. -/
def isQuoteChar (c : Char) : Bool := c = Char.ofNat 39 || c = '"'

/-- Replace every run of whitespace or underscores by one underscore
(`.replace(/[\s_]+/g, '_')`, line 54).  Fuelled structural recursion:
every step consumes at least one character. -/
def collapseWsToUnderscore : Nat → List Char → List Char
  | 0, _ => []
  | fuel + 1, cs =>
    match cs with
    | [] => []
    | c :: rest =>
      if isWsChar c || c = '_' then
        '_' :: collapseWsToUnderscore fuel (rest.dropWhile (fun d => isWsChar d || d = '_'))
      else c :: collapseWsToUnderscore fuel rest

/-- Replace every whitespace run by one space
(`.replace(/\s+/g, ' ')`, line 60). -/
def collapseWsToSpace : Nat → List Char → List Char
  | 0, _ => []
  | fuel + 1, cs =>
    match cs with
    | [] => []
    | c :: rest =>
      if isWsChar c then
        ' ' :: collapseWsToSpace fuel (rest.dropWhile isWsChar)
      else c :: collapseWsToSpace fuel rest

/-- Key normalization (lines 52–56): trim, strip quotes, collapse
whitespace/underscores, strip non-word characters, lower-case. -/
def cleanKey (s : String) : String :=
  let t1 := trimL s.data
  let t2 := t1.filter (fun c => !(isQuoteChar c))
  let t3 := collapseWsToUnderscore (t2.length + 1) t2
  let t4 := t3.filter (fun c => isWordChar c || isWsChar c || c = '-')
  ⟨t4.map Char.toLower⟩

/-- Strip one leading and one trailing quote character
(`.replace(/^["']|["']$/g, '')`, line 59). -/
def stripQuoteEnds (cs : List Char) : List Char :=
  let a := match cs with
    | c :: rest => if isQuoteChar c then rest else cs
    | [] => []
  match a.reverse with
  | c :: rest => if isQuoteChar c then rest.reverse else a
  | [] => a

/-- Value normalization (lines 58–60): trim, strip surrounding quotes,
collapse internal whitespace. -/
def cleanValue (s : String) : String :=
  let t := stripQuoteEnds (trimL s.data)
  ⟨collapseWsToSpace (t.length + 1) t⟩

/-- The per-block loop (lines 42–72): accumulate the entry and the
`hasValidPair` flag over the block's lines. -/
def blockEntry (block : String) : Record × Bool :=
  let lines := (splitLines block).filter (fun l => trimS l ≠ "")
  lines.foldl
    (fun acc line =>
      match matchLine line with
      | none => acc
      | some (k, v) =>
        let ck := cleanKey k
        let cv := cleanValue v
        if ck ≠ "" && cv ≠ "" then (insertKV acc.1 ck (.str cv), true)
        else acc)
    ([], false)

/-- `extractKeyValuePairs(text)` (lines 37–76). -/
def extractKeyValuePairs (text : String) : List Record :=
  let blocks := (splitBlocks text).filter (fun b => trimS b ≠ "")
  blocks.foldl
    (fun entries b =>
      let e := blockEntry b
      if e.2 then entries ++ [e.1] else entries)
    []

/-! ## JSON parsing (`JSON.parse`, used at lines 20 and 185)

A model of strict JSON parsing.  Numbers are modelled as integer
literals (an optional minus sign and digits); fraction/exponent parts
are outside the scope of the claims treated here.  The recursion is
fuelled; `3 * length + 3` fuel over-approximates the recursion depth,
which consumes at most three units per input character. -/

def isJsonWs (c : Char) : Bool :=
  c = ' ' || c = '\t' || c = '\n' || c = '\r'

def skipWs (cs : List Char) : List Char :=
  cs.dropWhile isJsonWs

def hexVal (c : Char) : Option Nat :=
  if '0' ≤ c && c ≤ '9' then some (c.toNat - 48)
  else if 'a' ≤ c && c ≤ 'f' then some (c.toNat - 87)
  else if 'A' ≤ c && c ≤ 'F' then some (c.toNat - 55)
  else none

/-- Single-character JSON string escapes. -/
def escChar (c : Char) : Option Char :=
  if c = '"' then some '"'
  else if c = '\\' then some '\\'
  else if c = '/' then some '/'
  else if c = 'n' then some '\n'
  else if c = 't' then some '\t'
  else if c = 'r' then some '\r'
  else if c = 'b' then some (Char.ofNat 8)
  else if c = 'f' then some (Char.ofNat 12)
  else none

/-- JSON string body (after the opening quote). -/
def parseStringBody : List Char → List Char → Option (String × List Char)
  | [], _ => none
  | '"' :: rest, acc => some (⟨acc.reverse⟩, rest)
  | '\\' :: 'u' :: h1 :: h2 :: h3 :: h4 :: rest, acc =>
    match hexVal h1, hexVal h2, hexVal h3, hexVal h4 with
    | some a, some b, some c, some d =>
      parseStringBody rest (Char.ofNat (((a * 16 + b) * 16 + c) * 16 + d) :: acc)
    | _, _, _, _ => none
  | '\\' :: e :: rest, acc =>
    match escChar e with
    | some c => parseStringBody rest (c :: acc)
    | none => none
  | c :: rest, acc =>
    if c.toNat < 32 then none else parseStringBody rest (c :: acc)

/-- JSON integer literal. -/
def parseNumber (cs : List Char) : Option (Int × List Char) :=
  let p : Bool × List Char := match cs with
    | '-' :: r => (true, r)
    | _ => (false, cs)
  let ds := p.2.takeWhile Char.isDigit
  if ds.isEmpty then none
  else
    let v : Nat := ds.foldl (fun a c => a * 10 + (c.toNat - 48)) 0
    some (if p.1 then -(v : Int) else (v : Int), p.2.dropWhile Char.isDigit)

mutual
def parseValueF : Nat → List Char → Option (JVal × List Char)
  | 0, _ => none
  | fuel + 1, cs =>
    match skipWs cs with
    | '{' :: rest => parseObjRestF fuel rest []
    | '[' :: rest => parseArrRestF fuel rest []
    | '"' :: rest => (parseStringBody rest []).map (fun p => (.str p.1, p.2))
    | 't' :: 'r' :: 'u' :: 'e' :: rest => some (.bool true, rest)
    | 'f' :: 'a' :: 'l' :: 's' :: 'e' :: rest => some (.bool false, rest)
    | 'n' :: 'u' :: 'l' :: 'l' :: rest => some (.null, rest)
    | cs2 => (parseNumber cs2).map (fun p => (.int p.1, p.2))

/-- After `{`: either an immediate `}` or one-or-more members. -/
def parseObjRestF : Nat → List Char → Record → Option (JVal × List Char)
  | 0, _, _ => none
  | fuel + 1, cs, acc =>
    match skipWs cs with
    | '}' :: rest => some (.obj acc, rest)
    | cs2 => parseObjMembersF fuel cs2 acc

/-- `"key" : value` members, separated by commas.  Duplicate keys
overwrite in place, as in `JSON.parse`. -/
def parseObjMembersF : Nat → List Char → Record → Option (JVal × List Char)
  | 0, _, _ => none
  | fuel + 1, cs, acc =>
    match skipWs cs with
    | '"' :: rest =>
      match parseStringBody rest [] with
      | none => none
      | some (k, r1) =>
        match skipWs r1 with
        | ':' :: r2 =>
          match parseValueF fuel r2 with
          | none => none
          | some (v, r3) =>
            match skipWs r3 with
            | ',' :: r4 => parseObjMembersF fuel r4 (insertKV acc k v)
            | '}' :: r4 => some (.obj (insertKV acc k v), r4)
            | _ => none
        | _ => none
    | _ => none

def parseArrRestF : Nat → List Char → List JVal → Option (JVal × List Char)
  | 0, _, _ => none
  | fuel + 1, cs, acc =>
    match skipWs cs with
    | ']' :: rest => some (.arr acc.reverse, rest)
    | cs2 => parseArrElemsF fuel cs2 acc

def parseArrElemsF : Nat → List Char → List JVal → Option (JVal × List Char)
  | 0, _, _ => none
  | fuel + 1, cs, acc =>
    match parseValueF fuel cs with
    | none => none
    | some (v, r1) =>
      match skipWs r1 with
      | ',' :: r2 => parseArrElemsF fuel r2 (v :: acc)
      | ']' :: r2 => some (.arr (v :: acc).reverse, r2)
      | _ => none
end

/-- `JSON.parse(s)`: a full parse of the string, with only trailing
whitespace allowed. -/
def jsonParse (s : String) : Option JVal :=
  match parseValueF (3 * s.length + 3) s.data with
  | some (v, rest) => if (skipWs rest).isEmpty then some v else none
  | none => none

/-! ## JSON fragment extractor (lines 3–35) -/

/-- The brace alternative of the candidate regex (line 5):
`\{(?:[^{}]|(?:\{[^{}]*\}))*\}` — a brace span tolerating one level of
inner nesting.  `k` counts the characters consumed so far (including
the opening brace); returns the total matched length. -/
def braceInner : Nat → List Char → Nat → Option Nat
  | 0, _, _ => none
  | fuel + 1, cs, k =>
    match cs with
    | [] => none
    | '}' :: _ => some (k + 1)
    | '{' :: rest2 =>
      let inner := rest2.takeWhile (fun c => c ≠ '{' && c ≠ '}')
      match rest2.drop inner.length with
      | '}' :: _ => braceInner fuel (rest2.drop (inner.length + 1)) (k + 1 + inner.length + 1)
      | _ => none
    | _ :: rest2 => braceInner fuel rest2 (k + 1)

/-- The bracket alternative of the candidate regex (line 5):
`\[(?:[^\[\]]|(?:\[.*?\]))*\]`.  The lazy inner `\[.*?\]` closes at the
nearest `]`, and `.` does not cross a newline. -/
def bracketInner : Nat → List Char → Nat → Option Nat
  | 0, _, _ => none
  | fuel + 1, cs, k =>
    match cs with
    | [] => none
    | ']' :: _ => some (k + 1)
    | '[' :: rest2 =>
      let inner := rest2.takeWhile (fun c => c ≠ ']' && c ≠ '\n')
      match rest2.drop inner.length with
      | ']' :: _ => bracketInner fuel (rest2.drop (inner.length + 1)) (k + 1 + inner.length + 1)
      | _ => none
    | _ :: rest2 => bracketInner fuel rest2 (k + 1)

/-- A candidate match at the current position: the brace alternative,
then the bracket alternative. -/
def fragMatchAt : List Char → Option Nat
  | '{' :: body => braceInner (body.length + 1) body 1
  | '[' :: body => bracketInner (body.length + 1) body 1
  | _ => none

/-- `text.match(jsonRegex)` (line 6): scan left to right, taking
non-overlapping candidate spans.  (A candidate span always has positive
length, so dropping it consumes at least one character per step.) -/
def fragMatches : Nat → List Char → List String
  | 0, _ => []
  | fuel + 1, cs =>
    match cs with
    | [] => []
    | c :: rest =>
      match fragMatchAt (c :: rest) with
      | some n =>
        if n = 0 then fragMatches fuel rest
        else ⟨(c :: rest).take n⟩ :: fragMatches fuel ((c :: rest).drop n)
      | none => fragMatches fuel rest

/-! Text repair (lines 11–18). -/

/-- Zero-width and BOM characters, `[​-‍﻿]` (line 12). -/
def isZeroWidth (c : Char) : Bool :=
  (0x200B ≤ c.toNat && c.toNat ≤ 0x200D) || c.toNat = 0xFEFF

/-- Curly quotes to straight quotes (lines 13–14). -/
def fixQuotes (c : Char) : Char :=
  if c.toNat = 0x2018 || c.toNat = 0x2019 then Char.ofNat 39
  else if c.toNat = 0x201C || c.toNat = 0x201D then '"'
  else c

/-- `.replace(/\n\s*(["}\\])/g, '$1')` (line 15): drop a newline and
following whitespace when a quote, closing brace or backslash follows. -/
def collapseNlBefore : Nat → List Char → List Char
  | 0, _ => []
  | fuel + 1, cs =>
    match cs with
    | [] => []
    | c :: rest =>
      if c = '\n' then
        match rest.dropWhile isWsChar with
        | d :: rest2 =>
          if d = '"' || d = '}' || d = '\\' then d :: collapseNlBefore fuel rest2
          else c :: collapseNlBefore fuel rest
        | [] => c :: collapseNlBefore fuel rest
      else c :: collapseNlBefore fuel rest

/-- `.replace(/([{[]),\s*\n\s*/g, '$1')` (line 16): after an opening
brace/bracket, drop a comma followed by a whitespace run containing a
newline. -/
def collapseCommaNl : Nat → List Char → List Char
  | 0, _ => []
  | fuel + 1, cs =>
    match cs with
    | [] => []
    | c :: ',' :: rest2 =>
      if (c = '{' || c = '[') && (rest2.takeWhile isWsChar).contains '\n' then
        c :: collapseCommaNl fuel (rest2.drop (rest2.takeWhile isWsChar).length)
      else c :: collapseCommaNl fuel (',' :: rest2)
    | c :: rest => c :: collapseCommaNl fuel rest

/-- `.replace(/\\n/g, ' ')` (line 17): literal escaped newlines. -/
def replaceEscNl : List Char → List Char
  | '\\' :: 'n' :: rest => ' ' :: replaceEscNl rest
  | c :: rest => c :: replaceEscNl rest
  | [] => []

/-- `.replace(/\\r/g, ' ')` (line 18): literal escaped carriage
returns. -/
def replaceEscCr : List Char → List Char
  | '\\' :: 'r' :: rest => ' ' :: replaceEscCr rest
  | c :: rest => c :: replaceEscCr rest
  | [] => []

/-- The cleaning chain applied to each candidate fragment
(lines 11–18). -/
def cleanFragment (s : String) : String :=
  let t1 := (s.data.filter (fun c => !isZeroWidth c)).map fixQuotes
  let t2 := collapseNlBefore (t1.length + 1) t1
  let t3 := collapseCommaNl (t2.length + 1) t2
  ⟨replaceEscCr (replaceEscNl t3)⟩

/-- `findJsonObjects(text)` (lines 3–35): parse each repaired candidate
fragment, splicing parsed arrays and skipping parse failures. -/
def findJsonObjects (text : String) : List JVal :=
  (fragMatches (text.data.length + 1) text.data).foldl
    (fun acc m =>
      match jsonParse (cleanFragment m) with
      | some (.arr xs) => acc ++ xs
      | some v => acc ++ [v]
      | none => acc)
    []

/-! ## parseDocument (lines 160–215) -/

/-- Fragment extraction followed by the key-value fallback
(lines 189–197; the Word-document path, lines 170–179, runs the same
block on the decoded text).  `none` models a thrown `TypeError`. -/
def extractedEntries (text : String) : Option (List Record) :=
  let js := findJsonObjects text
  match (if js.isEmpty then some [] else normalizeData (.arr js)) with
  | none => none
  | some e1 => some (e1 ++ extractKeyValuePairs text)

/-- The entry-collection phase for a raw text/JSON input (lines
182–198): try `JSON.parse` on the whole text, fall back to fragment and
key-value extraction.  The inner `catch` (line 187) is reached both
when `JSON.parse` throws and when `normalizeData(jsonData)` throws a
`TypeError`, so a failing `normalizeData` also falls back to the
extractors. -/
def entriesOfText (text : String) : Option (List Record) :=
  match jsonParse text with
  | some d =>
    match normalizeData d with
    | some e => some e
    | none => extractedEntries text
  | none => extractedEntries text

def noEntriesMsg : String := "No valid data entries found in the document"

/-- The multi-line remediation message of the outer catch
(lines 208–213). -/
def remediationMsg : String :=
  "Could not parse the document. Please ensure:\n- The document contains valid data (JSON or key-value pairs)\n- Each entry is properly formatted\n- There are no special characters or formatting issues"

/-- The `try` body of `parseDocument` for a raw text input (lines
181–206): throws `noEntriesMsg` when no entries were collected,
otherwise merges.  A `TypeError` escaping the entry collection is
modelled as `.error "TypeError"` (its message is not modelled). -/
def parseDocumentTry (text : String) : Except String (List Record) :=
  match entriesOfText text with
  | none => .error "TypeError"
  | some entries =>
    if entries.isEmpty then .error noEntriesMsg
    else .ok (mergeEntries entries)

/-- `parseDocument(input, false)` (lines 160–215): any error of the
`try` body is replaced by the fixed remediation error (lines 207–214). -/
def parseDocument (text : String) : Except String (List Record) :=
  match parseDocumentTry text with
  | .ok v => .ok v
  | .error _ => .error remediationMsg

deriving instance DecidableEq for Except

/-! ## Helper lemmas about records -/

/-- The keys of a record, in order. -/
def recordKeys (r : Record) : List String := r.map Prod.fst

/-- Is a value a string? -/
def isStrVal : JVal → Bool
  | .str _ => true
  | _ => false

/-- All values of every record of a list are strings. -/
def strValued (rs : List Record) : Prop :=
  ∀ r ∈ rs, ∀ p ∈ r, isStrVal p.2 = true

theorem insertKV_of_notMem {r : Record} {k : String} {v : JVal}
    (h : k ∉ recordKeys r) : insertKV r k v = r ++ [(k, v)] := by
  have hany : r.any (fun p => p.1 = k) = false := by
    rw [List.any_eq_false]
    intro p hp
    simp only [decide_eq_true_eq]
    intro hpk
    exact h (List.mem_map.mpr ⟨p, hp, hpk⟩)
  simp [insertKV, hany]

theorem insertKV_values {P : JVal → Prop} {r : Record} {k : String} {v : JVal}
    (hr : ∀ p ∈ r, P p.2) (hv : P v) : ∀ p ∈ insertKV r k v, P p.2 := by
  unfold insertKV
  split
  · intro p hp
    rcases List.mem_map.mp hp with ⟨q, hq, rfl⟩
    by_cases h : q.1 = k <;> simp [h]
    · exact hv
    · exact hr q hq
  · intro p hp
    rcases List.mem_append.mp hp with h | h
    · exact hr p h
    · simp at h
      rw [h]
      exact hv

theorem assignAll_values {P : JVal → Prop} {src : Record} :
    ∀ {r : Record}, (∀ p ∈ r, P p.2) → (∀ p ∈ src, P p.2) →
      ∀ p ∈ assignAll r src, P p.2 := by
  induction src with
  | nil => intro r hr _; exact hr
  | cons q qs ih =>
    intro r hr hs
    have h1 : ∀ p ∈ insertKV r q.1 q.2, P p.2 :=
      insertKV_values hr (hs q (List.mem_cons_self q qs))
    have h2 : ∀ p ∈ qs, P p.2 := fun p hp => hs p (List.mem_cons_of_mem q hp)
    simpa [assignAll, List.foldl_cons] using ih h1 h2

theorem recordKeys_insertKV_mem {r : Record} {k : String} {v : JVal}
    (h : k ∈ recordKeys r) : recordKeys (insertKV r k v) = recordKeys r := by
  have hany : r.any (fun p => p.1 = k) = true := by
    rw [List.any_eq_true]
    rcases List.mem_map.mp h with ⟨p, hp, hpk⟩
    exact ⟨p, hp, by simp [hpk]⟩
  have hins : insertKV r k v = r.map (fun p => if p.1 = k then (k, v) else p) := by
    unfold insertKV
    simp [hany]
  rw [hins]
  simp only [recordKeys, List.map_map]
  apply List.map_congr_left
  intro p _
  by_cases hpk : p.1 = k <;> simp [hpk]

theorem recordKeys_insertKV_notMem {r : Record} {k : String} {v : JVal}
    (h : k ∉ recordKeys r) : recordKeys (insertKV r k v) = recordKeys r ++ [k] := by
  rw [insertKV_of_notMem h]
  simp [recordKeys]

theorem insertKV_nodupKeys {r : Record} {k : String} {v : JVal}
    (h : (recordKeys r).Nodup) : (recordKeys (insertKV r k v)).Nodup := by
  by_cases hk : k ∈ recordKeys r
  · rw [recordKeys_insertKV_mem hk]; exact h
  · rw [recordKeys_insertKV_notMem hk]
    simp [List.nodup_append, h, hk]

theorem assignAll_nodupKeys {src r : Record}
    (h : (recordKeys r).Nodup) : (recordKeys (assignAll r src)).Nodup := by
  induction src generalizing r with
  | nil => exact h
  | cons q qs ih =>
    simpa [assignAll, List.foldl_cons] using ih (insertKV_nodupKeys h)

/-- The well-formedness invariant the flattener maintains: every value
is a string and keys are distinct. -/
def goodRec (r : Record) : Prop :=
  (∀ p ∈ r, isStrVal p.2 = true) ∧ (recordKeys r).Nodup

theorem goodRec_nil : goodRec [] :=
  ⟨by simp, by simp [recordKeys]⟩

theorem goodRec_insert_str {acc : Record} (k s : String) (h : goodRec acc) :
    goodRec (insertKV acc k (.str s)) := by
  refine ⟨?_, insertKV_nodupKeys h.2⟩
  exact @insertKV_values (fun v => isStrVal v = true) acc k (.str s) h.1 rfl

theorem goodRec_assign {acc sub : Record} (h1 : goodRec acc) (h2 : goodRec sub) :
    goodRec (assignAll acc sub) := by
  refine ⟨?_, assignAll_nodupKeys h1.2⟩
  exact @assignAll_values (fun v => isStrVal v = true) sub acc h1.1 h2.1

theorem flattenStrChars_good :
    ∀ (cs : List Char) (i : Nat) (pfx : String) (acc : Record),
      goodRec acc → goodRec (flattenStrChars cs i pfx acc) := by
  intro cs
  induction cs with
  | nil => intro i pfx acc h; simpa [flattenStrChars] using h
  | cons c cs ih =>
    intro i pfx acc h
    simp only [flattenStrChars]
    exact ih _ _ _ (goodRec_insert_str _ _ h)

/-- Every record the flattener produces (from a well-formed
accumulator) has string values and distinct keys. -/
theorem flatten_good_all :
    (∀ (es : List (String × JVal)) (pfx : String) (acc : Record), ∀ r : Record,
        flattenEntries es pfx acc = some r → goodRec acc → goodRec r) ∧
    (∀ (xs : List JVal) (nk : String) (i : Nat) (acc : Record), ∀ r : Record,
        flattenItems xs nk i acc = some r → goodRec acc → goodRec r) ∧
    (∀ (v : JVal) (pfx : String), ∀ r : Record,
        flattenObject v pfx = some r → goodRec r) := by
  refine flattenEntries.mutual_induct
    (fun es pfx acc => ∀ r : Record, flattenEntries es pfx acc = some r → goodRec acc → goodRec r)
    (fun xs nk i acc => ∀ r : Record, flattenItems xs nk i acc = some r → goodRec acc → goodRec r)
    (fun v pfx => ∀ r : Record, flattenObject v pfx = some r → goodRec r)
    ?_ ?_ ?_ ?_ ?_ ?_ ?_ ?_ ?_ ?_ ?_ ?_ ?_ ?_ ?_ ?_ ?_ ?_ ?_
  · intro pfx acc r h hacc
    simp only [flattenEntries, Option.some.injEq] at h
    exact h ▸ hacc
  · intro key rest pfx acc ih r h hacc
    simp only [flattenEntries] at h
    exact ih r h (goodRec_insert_str _ _ hacc)
  · intro key fs rest pfx acc hnone _ r h _
    simp [flattenEntries, hnone] at h
  · intro key fs rest pfx acc sub hsub ih3 ih1 r h hacc
    simp only [flattenEntries, hsub] at h
    exact ih1 r h (goodRec_assign hacc (ih3 sub hsub))
  · intro key x tl rest pfx acc hobj hnone _ r h _
    simp [flattenEntries, hobj, hnone] at h
  · intro key x tl rest pfx acc hobj sub hsub ih2 ih1 r h hacc
    simp only [flattenEntries, hobj, hsub, if_true] at h
    exact ih1 r h (ih2 sub hsub hacc)
  · intro key x tl rest pfx acc hnobj ih r h hacc
    simp only [flattenEntries, hnobj, if_false] at h
    exact ih r h (goodRec_insert_str _ _ hacc)
  · intro key rest pfx acc ih r h hacc
    simp only [flattenEntries] at h
    exact ih r h (goodRec_insert_str _ _ hacc)
  · intro key b rest pfx acc ih r h hacc
    simp only [flattenEntries] at h
    exact ih r h (goodRec_insert_str _ _ hacc)
  · intro key n rest pfx acc ih r h hacc
    simp only [flattenEntries] at h
    exact ih r h (goodRec_insert_str _ _ hacc)
  · intro key s rest pfx acc ih r h hacc
    simp only [flattenEntries] at h
    exact ih r h (goodRec_insert_str _ _ hacc)
  · intro nk i acc r h hacc
    simp only [flattenItems, Option.some.injEq] at h
    exact h ▸ hacc
  · intro item rest nk i acc hnone _ r h _
    simp [flattenItems, hnone] at h
  · intro item rest nk i acc sub hsub ih3 ih2 r h hacc
    simp only [flattenItems, hsub] at h
    exact ih2 r h (goodRec_assign hacc (ih3 sub hsub))
  · intro pfx r h
    simp [flattenObject] at h
  · intro fs pfx ih1 r h
    simp only [flattenObject] at h
    exact ih1 r h goodRec_nil
  · intro xs pfx ih1 r h
    simp only [flattenObject] at h
    exact ih1 r h goodRec_nil
  · intro s pfx r h
    simp only [flattenObject, Option.some.injEq] at h
    exact h ▸ flattenStrChars_good _ _ _ _ goodRec_nil
  · intro x pfx hnn hno hna hns r h
    cases x with
    | null => exact absurd rfl hnn
    | obj fs => exact absurd rfl (hno fs)
    | arr xs => exact absurd rfl (hna xs)
    | str s => exact absurd rfl (hns s)
    | bool b =>
      rw [flattenObject.eq_def] at h
      simp only [Option.some.injEq] at h
      exact h ▸ goodRec_nil
    | int n =>
      rw [flattenObject.eq_def] at h
      simp only [Option.some.injEq] at h
      exact h ▸ goodRec_nil

/-- Flattening a flat record (string values, distinct keys) appends it
to the accumulator unchanged. -/
theorem flattenEntries_flat :
    ∀ (r acc : Record),
      (∀ p ∈ r, isStrVal p.2 = true) →
      (recordKeys r).Nodup →
      (∀ k ∈ recordKeys r, k ∉ recordKeys acc) →
      flattenEntries r "" acc = some (acc ++ r) := by
  intro r
  induction r with
  | nil => intro acc _ _ _; simp [flattenEntries]
  | cons p rest ih =>
    obtain ⟨k, v⟩ := p
    intro acc hstr hnd hdis
    have hv : isStrVal v = true := hstr (k, v) (List.mem_cons_self _ _)
    cases v with
    | null => simp [isStrVal] at hv
    | bool b => simp [isStrVal] at hv
    | int n => simp [isStrVal] at hv
    | arr xs => simp [isStrVal] at hv
    | obj fs => simp [isStrVal] at hv
    | str s =>
      have hk : joinKey "" k = k := by simp [joinKey]
      have hs : jsString (.str s) = s := by simp [jsString]
      have hkacc : k ∉ recordKeys acc := hdis k (by simp [recordKeys])
      have hkeys : recordKeys (acc ++ [(k, JVal.str s)]) = recordKeys acc ++ [k] := by
        simp [recordKeys]
      have hknotrest : k ∉ recordKeys rest := by
        have := hnd
        simp only [recordKeys, List.map_cons, List.nodup_cons] at this
        exact this.1
      simp only [flattenEntries, hk, hs, insertKV_of_notMem hkacc]
      rw [ih (acc ++ [(k, JVal.str s)])
        (fun p hp => hstr p (List.mem_cons_of_mem _ hp))
        (by simp only [recordKeys, List.map_cons, List.nodup_cons] at hnd; exact hnd.2)
        ?_]
      · simp
      · intro k2 hk2
        have hkcons : recordKeys ((k, JVal.str s) :: rest) = k :: recordKeys rest := by
          simp [recordKeys]
        rw [hkeys]
        simp only [List.mem_append, List.mem_singleton]
        rintro (hc | rfl)
        · exact hdis k2 (by rw [hkcons]; exact List.mem_cons_of_mem _ hk2) hc
        · exact hknotrest hk2

/-! ## Merger helper lemmas -/

theorem padRecordGo_eq :
    ∀ (ks : List String) (e acc : Record),
      ks.Nodup → (∀ k ∈ ks, k ∉ recordKeys acc) →
      padRecordGo ks e acc = acc ++ ks.map (fun k => (k, jsGetOr e k)) := by
  intro ks
  induction ks with
  | nil => intro e acc _ _; simp [padRecordGo]
  | cons k ks ih =>
    intro e acc hnd hdis
    have hkacc : k ∉ recordKeys acc := hdis k (List.mem_cons_self _ _)
    have hcons := List.nodup_cons.mp hnd
    simp only [padRecordGo, insertKV_of_notMem hkacc]
    rw [ih e _ hcons.2 ?_]
    · simp
    · intro k2 hk2
      have hkeys : recordKeys (acc ++ [(k, jsGetOr e k)]) = recordKeys acc ++ [k] := by
        simp [recordKeys]
      rw [hkeys]
      simp only [List.mem_append, List.mem_singleton]
      rintro (hc | rfl)
      · exact hdis k2 (List.mem_cons_of_mem _ hk2) hc
      · exact hcons.1 hk2

theorem padRecord_eq {ks : List String} (e : Record) (hnd : ks.Nodup) :
    padRecord ks e = ks.map (fun k => (k, jsGetOr e k)) := by
  unfold padRecord
  rw [padRecordGo_eq ks e [] hnd (by simp [recordKeys])]
  simp

theorem addKey_nodup {ks : List String} {k : String} (h : ks.Nodup) :
    (addKey ks k).Nodup := by
  unfold addKey
  split
  · exact h
  · next hk => simp [List.nodup_append, h, hk]

theorem addRecordKeys_nodup :
    ∀ (e : Record) {ks : List String}, ks.Nodup → (addRecordKeys ks e).Nodup := by
  intro e
  induction e with
  | nil => intro ks h; simpa [addRecordKeys] using h
  | cons p rest ih =>
    intro ks h
    simpa [addRecordKeys, List.foldl_cons] using ih (addKey_nodup h)

theorem allKeys_nodup (entries : List Record) : (allKeys entries).Nodup := by
  suffices hgen : ∀ (es : List Record) (ks : List String), ks.Nodup →
      (es.foldl addRecordKeys ks).Nodup by
    exact hgen entries [] (by simp)
  intro es
  induction es with
  | nil => intro ks h; simpa using h
  | cons e rest ih =>
    intro ks h
    simpa [List.foldl_cons] using ih _ (addRecordKeys_nodup e h)

theorem jsGet_map_pad (e : Record) :
    ∀ (ks : List String) (k : String), k ∈ ks →
      jsGet (ks.map (fun k2 => (k2, jsGetOr e k2))) k = some (jsGetOr e k) := by
  intro ks
  induction ks with
  | nil => simp
  | cons k2 ks ih =>
    intro k hk
    by_cases h : k2 = k
    · subst h
      simp [jsGet, List.find?]
    · have hk3 : k ∈ ks := by
        rcases List.mem_cons.mp hk with h2 | h2
        · exact absurd h2.symm h
        · exact h2
      have hrec := ih k hk3
      unfold jsGet at hrec ⊢
      rw [List.map_cons, List.find?_cons_of_neg _ (by simp [h])]
      exact hrec

theorem jsGetOr_of_notMem {e : Record} {k : String} (h : k ∉ recordKeys e) :
    jsGetOr e k = .str "" := by
  have hnone : jsGet e k = none := by
    unfold jsGet
    rw [List.find?_eq_none.mpr]
    · rfl
    · intro p hp
      simp only [decide_eq_true_eq]
      intro hpk
      exact h (List.mem_map.mpr ⟨p, hp, hpk⟩)
  simp [jsGetOr, hnone]

/-! ## Deduplication helper lemmas -/

theorem mem_keepFirst : ∀ (l : List Record) (e : Record), e ∈ keepFirst l ↔ e ∈ l := by
  intro l
  induction l using keepFirst.induct with
  | case1 => simp [keepFirst]
  | case2 x rest ih =>
    intro e
    simp only [keepFirst, List.mem_cons]
    constructor
    · rintro (rfl | h)
      · exact Or.inl rfl
      · exact Or.inr (List.mem_of_mem_filter ((ih e).mp h))
    · rintro (rfl | h)
      · exact Or.inl rfl
      · by_cases hex : e = x
        · exact Or.inl hex
        · exact Or.inr ((ih e).mpr (List.mem_filter.mpr ⟨h, by simp [hex]⟩))

theorem nodup_keepFirst : ∀ l : List Record, (keepFirst l).Nodup := by
  intro l
  induction l using keepFirst.induct with
  | case1 => simp [keepFirst]
  | case2 x rest ih =>
    simp only [keepFirst, List.nodup_cons]
    refine ⟨?_, ih⟩
    intro hmem
    have hf := List.mem_filter.mp ((mem_keepFirst _ _).mp hmem)
    simp at hf

theorem removeDuplicatesGo_eq :
    ∀ (l seen : List Record),
      removeDuplicatesGo seen l = keepFirst (l.filter (fun e => decide (e ∉ seen))) := by
  intro l
  induction l with
  | nil => intro seen; simp [removeDuplicatesGo, keepFirst]
  | cons x xs ih =>
    intro seen
    by_cases hx : x ∈ seen
    · rw [removeDuplicatesGo, if_pos hx, ih seen]
      congr 1
      rw [List.filter_cons]
      simp [hx]
    · rw [removeDuplicatesGo, if_neg hx, ih (x :: seen)]
      have hrhs : (x :: xs).filter (fun e => decide (e ∉ seen)) =
          x :: xs.filter (fun e => decide (e ∉ seen)) := by
        rw [List.filter_cons]
        simp [hx]
      rw [hrhs, keepFirst]
      congr 1
      rw [List.filter_filter]
      congr 1
      apply List.filter_congr
      intro e _
      by_cases h1 : e = x <;> by_cases h2 : e ∈ seen <;> simp [h1, h2]

theorem removeDuplicates_eq_keepFirst (l : List Record) :
    removeDuplicates l = keepFirst l := by
  unfold removeDuplicates
  rw [removeDuplicatesGo_eq]
  congr 1
  apply List.filter_eq_self.mpr
  intro e _
  simp

/-- Membership through `mapOption`. -/
theorem mapOption_mem_source {f : JVal → Option Record} :
    ∀ {l : List JVal} {rs : List Record}, mapOption l f = some rs →
      ∀ r ∈ rs, ∃ a ∈ l, f a = some r := by
  intro l
  induction l with
  | nil =>
    intro rs h r hr
    simp only [mapOption, Option.some.injEq] at h
    subst h
    simp at hr
  | cons a l ih =>
    intro rs h r hr
    rcases hfa : f a with _ | b <;> simp only [mapOption, hfa] at h
    · exact absurd h (by simp)
    · rcases hml : mapOption l f with _ | bs <;> rw [hml] at h
      · exact absurd h (by simp)
      · simp only [Option.some.injEq] at h
        subst h
        rcases List.mem_cons.mp hr with rfl | hrbs
        · exact ⟨a, List.mem_cons_self _ _, hfa⟩
        · rcases ih hml r hrbs with ⟨a2, ha2, hfa2⟩
          exact ⟨a2, List.mem_cons_of_mem _ ha2, hfa2⟩


/-! ## Key-value extractor helper lemmas -/

/-- A line yields a valid pair: it matches the key-value pattern and
both the cleaned key and the cleaned value are non-empty. -/
def lineValid (line : String) : Bool :=
  match matchLine line with
  | some kv => decide (cleanKey kv.1 ≠ "") && decide (cleanValue kv.2 ≠ "")
  | none => false

theorem blockEntry_fold_flag :
    ∀ (lines : List String) (acc : Record × Bool),
      (lines.foldl
        (fun acc line =>
          match matchLine line with
          | none => acc
          | some (k, v) =>
            let ck := cleanKey k
            let cv := cleanValue v
            if ck ≠ "" && cv ≠ "" then (insertKV acc.1 ck (.str cv), true)
            else acc)
        acc).2 = (acc.2 || lines.any lineValid) := by
  intro lines
  induction lines with
  | nil => intro acc; simp
  | cons l ls ih =>
    intro acc
    rw [List.foldl_cons, List.any_cons, ih]
    rcases hml : matchLine l with _ | ⟨k, v⟩
    · have hlv : lineValid l = false := by simp [lineValid, hml]
      simp [hml, hlv]
    · by_cases hck : cleanKey k = ""
      · have hlv : lineValid l = false := by simp [lineValid, hml, hck]
        simp [hml, hck, hlv]
      · by_cases hcv : cleanValue v = ""
        · have hlv : lineValid l = false := by simp [lineValid, hml, hcv]
          simp [hml, hck, hcv, hlv]
        · have hlv : lineValid l = true := by simp [lineValid, hml, hck, hcv]
          simp [hml, hck, hcv, hlv]

theorem blockEntry_fold_values :
    ∀ (lines : List String) (acc : Record × Bool),
      (∀ p ∈ acc.1, isStrVal p.2 = true) →
      ∀ p ∈ (lines.foldl
        (fun acc line =>
          match matchLine line with
          | none => acc
          | some (k, v) =>
            let ck := cleanKey k
            let cv := cleanValue v
            if ck ≠ "" && cv ≠ "" then (insertKV acc.1 ck (.str cv), true)
            else acc)
        acc).1, isStrVal p.2 = true := by
  intro lines
  induction lines with
  | nil => intro acc h; simpa using h
  | cons l ls ih =>
    intro acc h
    rw [List.foldl_cons]
    rcases hml : matchLine l with _ | ⟨k, v⟩
    · simp only [hml]
      exact ih acc h
    · by_cases hc : (cleanKey k ≠ "" && cleanValue v ≠ "") = true
      · simp only [hml, hc, if_true]
        refine ih _ ?_
        exact @insertKV_values (fun w => isStrVal w = true) acc.1 (cleanKey k)
          (.str (cleanValue v)) h rfl
      · simp only [hml, if_neg hc]
        exact ih acc h

theorem extractKV_fold_eq :
    ∀ (bs : List String) (acc : List Record),
      bs.foldl
        (fun entries b =>
          let e := blockEntry b
          if e.2 then entries ++ [e.1] else entries)
        acc =
      acc ++ bs.filterMap (fun b => if (blockEntry b).2 then some (blockEntry b).1 else none) := by
  intro bs
  induction bs with
  | nil => intro acc; simp
  | cons b bs ih =>
    intro acc
    rw [List.foldl_cons, List.filterMap_cons]
    by_cases hb : (blockEntry b).2 = true
    · simp only [hb, if_true]
      rw [ih]
      simp
    · simp only [if_neg hb]
      rw [ih]

/-- Every record the key-value extractor emits has string values. -/
theorem extractKeyValuePairs_strValued (text : String) :
    strValued (extractKeyValuePairs text) := by
  intro r hr p hp
  unfold extractKeyValuePairs at hr
  rw [extractKV_fold_eq, List.nil_append] at hr
  rcases List.mem_filterMap.mp hr with ⟨b, _, hb⟩
  by_cases h2 : (blockEntry b).2 = true
  · rw [if_pos h2] at hb
    have hre : r = (blockEntry b).1 := by simpa using hb.symm
    subst hre
    exact blockEntry_fold_values ((splitLines b).filter (fun l => trimS l ≠ ""))
      ([], false) (by simp) p hp
  · rw [if_neg h2] at hb
    simp at hb

/-! ## Normalizer helper lemmas -/

/-- The tabular detection condition of lines 105–110: after wrapping,
the first element is an array — equivalently, the input itself is an
array whose first element is an array. -/
def isTabular : JVal → Bool
  | .arr (.arr _ :: _) => true
  | _ => false

theorem mapOption_strValued {f : JVal → Option Record}
    (hf : ∀ a r, f a = some r → ∀ p ∈ r, isStrVal p.2 = true) :
    ∀ {l : List JVal} {recs : List Record}, mapOption l f = some recs → strValued recs := by
  intro l recs h r hr
  rcases mapOption_mem_source h r hr with ⟨a, _, hfa⟩
  exact hf a r hfa

/-- On non-tabular input, every value `normalizeData` emits is a
string. -/
theorem normalizeData_strValued (data : JVal) (recs : List Record)
    (ht : isTabular data = false) (h : normalizeData data = some recs) :
    strValued recs := by
  have hf : ∀ (a : JVal) (r : Record),
      (match a with
        | .obj fs => flattenObject (.obj fs) ""
        | .arr xs => flattenObject (.arr xs) ""
        | v => some [("value", .str (jsString v))]) = some r →
      ∀ p ∈ r, isStrVal p.2 = true := by
    intro a r ha
    cases a with
    | obj fs => exact fun p hp => (flatten_good_all.2.2 _ _ r ha).1 p hp
    | arr xs => exact fun p hp => (flatten_good_all.2.2 _ _ r ha).1 p hp
    | null =>
      simp only [Option.some.injEq] at ha
      subst ha
      intro p hp
      simp at hp
      rw [hp]
      rfl
    | bool b =>
      simp only [Option.some.injEq] at ha
      subst ha
      intro p hp
      simp at hp
      rw [hp]
      rfl
    | int n =>
      simp only [Option.some.injEq] at ha
      subst ha
      intro p hp
      simp at hp
      rw [hp]
      rfl
    | str s =>
      simp only [Option.some.injEq] at ha
      subst ha
      intro p hp
      simp at hp
      rw [hp]
      rfl
  unfold normalizeData at h
  cases data with
  | arr xs =>
    cases xs with
    | nil => exact mapOption_strValued hf (by simpa using h)
    | cons x rest =>
      cases x with
      | arr ys => simp [isTabular] at ht
      | null => exact mapOption_strValued hf (by simpa using h)
      | bool b => exact mapOption_strValued hf (by simpa using h)
      | int n => exact mapOption_strValued hf (by simpa using h)
      | str s => exact mapOption_strValued hf (by simpa using h)
      | obj fs => exact mapOption_strValued hf (by simpa using h)
  | null => exact mapOption_strValued hf (by simpa using h)
  | bool b => exact mapOption_strValued hf (by simpa using h)
  | int n => exact mapOption_strValued hf (by simpa using h)
  | str s => exact mapOption_strValued hf (by simpa using h)
  | obj fs => exact mapOption_strValued hf (by simpa using h)

/-- `mergeEntries` preserves string-valuedness. -/
theorem mergeEntries_strValued (entries : List Record)
    (h : strValued entries) : strValued (mergeEntries entries) := by
  intro r hr p hp
  unfold mergeEntries at hr
  rcases List.mem_map.mp hr with ⟨e, he, rfl⟩
  have hestr : ∀ q ∈ e, isStrVal q.2 = true := by
    have hmem : e ∈ entries := by
      have := (mem_keepFirst entries e).mp
      rw [← removeDuplicates_eq_keepFirst] at this
      exact this he
    exact h e hmem
  rw [padRecord_eq e (allKeys_nodup (removeDuplicates entries))] at hp
  rcases List.mem_map.mp hp with ⟨k, _, rfl⟩
  rcases hg : jsGet e k with _ | v
  · simp [jsGetOr, hg, isStrVal]
  · have hv : isStrVal v = true := by
      unfold jsGet at hg
      rcases hfind : e.find? (fun q => q.1 = k) with _ | q <;> rw [hfind] at hg
      · exact absurd hg (by simp)
      · have hq : q ∈ e := List.mem_of_find?_eq_some hfind
        exact (Option.some.inj hg) ▸ hestr q hq
    simp only [jsGetOr, hg]
    by_cases htr : truthy v = true
    · simp [htr, hv]
    · simp [htr, isStrVal]

/-! ## Tabular branch helper lemmas -/

/-- `String(header).toLowerCase()` for a header cell. -/
def lowerHeader (h : JVal) : String := lowerStr (jsString h)

/-- Specification-level description of one tabular row: zip lower-cased
header names with row cells positionally; missing or falsy cells become
the empty string. -/
def zipHeaders : List JVal → List JVal → Nat → Record
  | [], _, _ => []
  | h :: hs, cells, i =>
    (lowerHeader h, orEmptyStr (cells.get? i)) :: zipHeaders hs cells (i + 1)

theorem tabularRowGo_eq :
    ∀ (hs cells : List JVal) (i : Nat) (acc : Record),
      (hs.map lowerHeader).Nodup →
      (∀ h ∈ hs, lowerHeader h ∉ recordKeys acc) →
      tabularRowGo hs (.arr cells) i acc = some (acc ++ zipHeaders hs cells i) := by
  intro hs
  induction hs with
  | nil => intro cells i acc _ _; simp [tabularRowGo, zipHeaders]
  | cons h hs ih =>
    intro cells i acc hnd hdis
    rw [List.map_cons] at hnd
    have hcons := List.nodup_cons.mp hnd
    have hjs : jsIndex (.arr cells) i = some (cells.get? i) := rfl
    have hlh : lowerStr (jsString h) = lowerHeader h := rfl
    simp only [tabularRowGo, zipHeaders, hjs, hlh]
    rw [insertKV_of_notMem (hdis h (List.mem_cons_self _ _))]
    rw [ih cells (i + 1) _ hcons.2 ?_]
    · simp
    · intro h2 hh2
      have hkeys : recordKeys (acc ++ [(lowerHeader h, orEmptyStr (cells.get? i))]) =
          recordKeys acc ++ [lowerHeader h] := by
        simp [recordKeys]
      rw [hkeys]
      simp only [List.mem_append, List.mem_singleton]
      rintro (hc | heq)
      · exact hdis h2 (List.mem_cons_of_mem _ hh2) hc
      · exact hcons.1 (heq ▸ List.mem_map_of_mem lowerHeader hh2)

theorem tabularRow_eq (hs cells : List JVal)
    (hnd : (hs.map lowerHeader).Nodup) :
    tabularRow hs (.arr cells) = some (zipHeaders hs cells 0) := by
  unfold tabularRow
  rw [tabularRowGo_eq hs cells 0 [] hnd (by simp [recordKeys])]
  simp

/-- On a non-null row no `row[index]` access throws, so the row loop
always produces a record. -/
theorem tabularRowGo_isSome :
    ∀ (hs : List JVal) (row : JVal) (i : Nat) (acc : Record),
      row ≠ JVal.null → ∃ r, tabularRowGo hs row i acc = some r := by
  intro hs
  induction hs with
  | nil => intro row i acc _; exact ⟨acc, rfl⟩
  | cons h hs ih =>
    intro row i acc hrow
    obtain ⟨c, hc⟩ : ∃ c, jsIndex row i = some c := by
      cases row with
      | null => exact absurd rfl hrow
      | bool b => exact ⟨none, rfl⟩
      | int n => exact ⟨none, rfl⟩
      | str s => exact ⟨_, rfl⟩
      | arr xs => exact ⟨_, rfl⟩
      | obj fs => exact ⟨_, rfl⟩
    simp only [tabularRowGo, hc]
    exact ih row (i + 1) _ hrow

/-- `tabularRow` throws exactly on a null row with at least one header. -/
theorem tabularRow_none_iff (hs : List JVal) (row : JVal) :
    tabularRow hs row = none ↔ (row = JVal.null ∧ hs ≠ []) := by
  unfold tabularRow
  cases hs with
  | nil => simp [tabularRowGo]
  | cons h hs =>
    constructor
    · intro hnone
      by_cases hrow : row = JVal.null
      · exact ⟨hrow, by simp⟩
      · obtain ⟨r, hr⟩ := tabularRowGo_isSome (h :: hs) row 0 [] hrow
        rw [hr] at hnone
        exact absurd hnone (by simp)
    · rintro ⟨rfl, -⟩
      simp [tabularRowGo, jsIndex]

/-- Is a parsed value a scalar (not a mapping or sequence)? -/
def isScalar : JVal → Bool
  | .null => true
  | .bool _ => true
  | .int _ => true
  | .str _ => true
  | _ => false

/-! ## Claim theorems -/

/-- C2: every Record in the merger's output has key list equal to
SchemaUnion (the union of all keys across surviving Records, in
first-encounter order) exactly, and padding substitutes the empty
string for every SchemaUnion key absent from the source Record. -/
theorem mergeEntries_schema_completeness (entries : List Record) :
    (∀ r ∈ mergeEntries entries,
      recordKeys r = allKeys (removeDuplicates entries)) ∧
    (∀ e ∈ removeDuplicates entries, ∀ k ∈ allKeys (removeDuplicates entries),
      k ∉ recordKeys e →
        jsGet (padRecord (allKeys (removeDuplicates entries)) e) k = some (.str "")) ∧
    mergeEntries entries =
      (removeDuplicates entries).map (padRecord (allKeys (removeDuplicates entries))) := by
  have hnd := allKeys_nodup (removeDuplicates entries)
  refine ⟨?_, ?_, rfl⟩
  · intro r hr
    unfold mergeEntries at hr
    rcases List.mem_map.mp hr with ⟨e, he, rfl⟩
    rw [padRecord_eq e hnd]
    unfold recordKeys
    rw [List.map_map]
    have hid : (Prod.fst ∘ fun k => (k, jsGetOr e k)) = id := rfl
    rw [hid, List.map_id]
  · intro e he k hk hkabs
    rw [padRecord_eq e hnd, jsGet_map_pad e _ k hk, jsGetOr_of_notMem hkabs]

/-- Witness for C2 at a concrete two-record input with disjoint keys. -/
theorem mergeEntries_schema_completeness_witness :
    recordKeys [("a", JVal.str "1"), ("b", JVal.str "")] =
      allKeys (removeDuplicates [[("a", JVal.str "1")], [("b", JVal.str "2")]]) ∧
    jsGet (padRecord (allKeys (removeDuplicates
        [[("a", JVal.str "1")], [("b", JVal.str "2")]])) [("a", JVal.str "1")]) "b" =
      some (.str "") :=
  ⟨(mergeEntries_schema_completeness [[("a", JVal.str "1")], [("b", JVal.str "2")]]).1
      [("a", JVal.str "1"), ("b", JVal.str "")] (by decide),
   (mergeEntries_schema_completeness [[("a", JVal.str "1")], [("b", JVal.str "2")]]).2.1
      [("a", JVal.str "1")] (by decide) "b" (by decide) (by decide)⟩

/-- C3 counterexample: two input Records with equal key/value pairs in
different key order are NOT deduplicated — `JSON.stringify` identity is
key-order-sensitive — and after padding the output contains two
structurally identical Records. -/
theorem dedup_order_insensitive_cex :
    mergeEntries [[("a", JVal.str "1"), ("b", JVal.str "2")],
                  [("b", JVal.str "2"), ("a", JVal.str "1")]] =
      [[("a", JVal.str "1"), ("b", JVal.str "2")],
       [("a", JVal.str "1"), ("b", JVal.str "2")]] := by decide

/-- C3 (amended): deduplication is by serialized identity, which is
key-order-sensitive: among the surviving pre-padding Records no two are
identical as ordered key/value sequences, every input Record is
represented exactly once up to that identity, and the output is the
padded image of the survivors. -/
theorem dedup_serialized_identity (entries : List Record) :
    (removeDuplicates entries).Nodup ∧
    (∀ e ∈ entries, e ∈ removeDuplicates entries) ∧
    (∀ e ∈ removeDuplicates entries, e ∈ entries) ∧
    mergeEntries entries =
      (removeDuplicates entries).map (padRecord (allKeys (removeDuplicates entries))) := by
  refine ⟨?_, ?_, ?_, rfl⟩
  · rw [removeDuplicates_eq_keepFirst]
    exact nodup_keepFirst entries
  · intro e he
    rw [removeDuplicates_eq_keepFirst]
    exact (mem_keepFirst _ _).mpr he
  · intro e he
    rw [removeDuplicates_eq_keepFirst] at he
    exact (mem_keepFirst _ _).mp he

/-- Witness for the amended C3: an exact duplicate (same key order)
collapses to one surviving Record. -/
theorem dedup_serialized_identity_witness :
    [("a", JVal.str "1")] ∈
      removeDuplicates [[("a", JVal.str "1")], [("a", JVal.str "1")]] :=
  (dedup_serialized_identity [[("a", JVal.str "1")], [("a", JVal.str "1")]]).2.1
    [("a", JVal.str "1")] (by decide)

/-- C10: the merger preserves input order modulo deduplication — the
output is the padded image of `keepFirst`, which keeps the earliest
occurrence of each duplicate group in first-occurrence order. -/
theorem mergeEntries_order (entries : List Record) :
    mergeEntries entries =
      (keepFirst entries).map (padRecord (allKeys (keepFirst entries))) := by
  simp only [mergeEntries]
  rw [removeDuplicates_eq_keepFirst]

/-- C5: the flattener returns every already-flat Record (string values,
distinct keys) unchanged, and is idempotent on its own output. -/
theorem flattenObject_flat_identity :
    (∀ r : Record, (∀ p ∈ r, isStrVal p.2 = true) → (recordKeys r).Nodup →
      flattenObject (.obj r) "" = some r) ∧
    (∀ (v : JVal) (pfx : String) (r : Record), flattenObject v pfx = some r →
      flattenObject (.obj r) "" = some r) := by
  have hmain : ∀ r : Record, (∀ p ∈ r, isStrVal p.2 = true) → (recordKeys r).Nodup →
      flattenObject (.obj r) "" = some r := by
    intro r hstr hnd
    have h := flattenEntries_flat r [] hstr hnd (by simp [recordKeys])
    simpa [flattenObject] using h
  refine ⟨hmain, fun v pfx r h => ?_⟩
  have hg := flatten_good_all.2.2 v pfx r h
  exact hmain r hg.1 hg.2

/-- Witness for C5 at a concrete flat record. -/
theorem flattenObject_flat_identity_witness :
    flattenObject (.obj [("a", JVal.str "1"), ("b", JVal.str "x y")]) "" =
      some [("a", JVal.str "1"), ("b", JVal.str "x y")] :=
  flattenObject_flat_identity.1 [("a", JVal.str "1"), ("b", JVal.str "x y")]
    (by decide) (by decide)

/-- C6 counterexample: the element `0` is falsy, so
`String(item || '')` turns it into the empty string rather than its
string representation `"0"`: `{a: [0, 1]}` flattens to `{a: ", 1"}`,
not `{a: "0, 1"}`. -/
theorem joinScalars_falsy_cex :
    flattenObject (.obj [("a", .arr [JVal.int 0, JVal.int 1])]) "" =
      some [("a", JVal.str ", 1")] ∧
    jsString (JVal.int 0) = "0" ∧
    (", 1" : String) ≠ "0, 1" := by
  refine ⟨?_, by decide, by decide⟩
  simp [flattenObject, flattenEntries, isObjLike, insertKV, joinKey]
  decide

/-- C6 (amended): a mapping field holding a sequence of scalars whose
first element is not `null` flattens, under the prefix-joined key, to
the comma-space join in which falsy scalars (`null`, `false`, `0`,
`""`) contribute the empty string and all other scalars their string
representation; the `{user: {name, tags}}` example of the spec holds. -/
theorem flatten_scalar_seq_amended :
    (∀ (pfx k : String) (es : List JVal),
      (∀ e ∈ es, isScalar e = true) → es.head? ≠ some JVal.null →
      flattenObject (.obj [(k, .arr es)]) pfx =
        some [(joinKey pfx k, .str (joinScalars es))]) ∧
    flattenObject (.obj [("user", .obj [("name", JVal.str "Alice"),
        ("tags", .arr [JVal.str "x", JVal.str "y"])])]) "" =
      some [("user_name", JVal.str "Alice"), ("user_tags", JVal.str "x, y")] := by
  constructor
  · intro pfx k es hs hn
    cases es with
    | nil => simp [flattenObject, flattenEntries, insertKV]
    | cons x tl =>
      have hx : isObjLike x = false := by
        have hsx := hs x (List.mem_cons_self _ _)
        cases x <;> simp_all [isScalar, isObjLike]
      simp [flattenObject, flattenEntries, hx, insertKV]
  · simp [flattenObject, flattenEntries, flattenItems, isObjLike, insertKV,
      assignAll, joinKey]
    decide

/-- Witness for the amended C6 on a scalar sequence with a falsy
element. -/
theorem flatten_scalar_seq_amended_witness :
    flattenObject (.obj [("tags", .arr [JVal.str "x", JVal.bool false, JVal.int 3])]) "user" =
      some [(joinKey "user" "tags",
        .str (joinScalars [JVal.str "x", JVal.bool false, JVal.int 3]))] :=
  flatten_scalar_seq_amended.1 "user" "tags"
    [JVal.str "x", JVal.bool false, JVal.int 3] (by decide) (by decide)

/-- C7 counterexample: a falsy cell value (`0`) is replaced by the
empty string by `row[index] || ''` — it is neither passed through nor
stringified. -/
theorem tabular_falsy_cex :
    normalizeData (.arr [.arr [JVal.str "a"], .arr [JVal.int 0]]) =
      some [[("a", JVal.str "")]] ∧
    [("a", JVal.str "")] ≠ ([("a", JVal.int 0)] : Record) ∧
    [("a", JVal.str "")] ≠ ([("a", JVal.str "0")] : Record) := by decide

set_option maxRecDepth 20000 in
/-- C7 (amended): a sequence whose first element is a sequence is
treated as tabular — the first inner sequence supplies lower-cased
column names and the later elements are processed row by row.  A null
row makes `row[index]` throw a `TypeError` (exactly when at least one
column name exists), aborting normalization — on the input
`[["h"],null]` the whole parse ends in the remediation error.  Every
other row becomes one Record; an inner-sequence row zips names to cell
values positionally, with the empty string substituted for missing
positions and for falsy cell values; the
`[[name,age],[Alice,30],[Bob,25]]` example of the spec holds. -/
theorem normalize_tabular_amended :
    (∀ (hs rows : List JVal),
      normalizeData (.arr (.arr hs :: rows)) = mapOption rows (tabularRow hs)) ∧
    (∀ (hs : List JVal) (row : JVal),
      tabularRow hs row = none ↔ (row = JVal.null ∧ hs ≠ [])) ∧
    (∀ (hs cells : List JVal), (hs.map lowerHeader).Nodup →
      tabularRow hs (.arr cells) = some (zipHeaders hs cells 0)) ∧
    normalizeData (.arr [.arr [JVal.str "h"], JVal.null]) = none ∧
    parseDocument "[[\"h\"],null]" = .error remediationMsg ∧
    normalizeData (.arr [.arr [JVal.str "name", JVal.str "age"],
        .arr [JVal.str "Alice", JVal.str "30"], .arr [JVal.str "Bob", JVal.str "25"]]) =
      some [[("name", JVal.str "Alice"), ("age", JVal.str "30")],
            [("name", JVal.str "Bob"), ("age", JVal.str "25")]] := by
  refine ⟨fun hs rows => rfl, tabularRow_none_iff, tabularRow_eq,
    by decide, by decide, by decide⟩

/-- Witness for the amended C7: zipping with a short row pads with
empty strings and lower-cases header names. -/
theorem normalize_tabular_amended_witness :
    tabularRow [JVal.str "A", JVal.str "b"] (.arr [JVal.int 7]) =
      some (zipHeaders [JVal.str "A", JVal.str "b"] [JVal.int 7] 0) :=
  normalize_tabular_amended.2.2.1 [JVal.str "A", JVal.str "b"] [JVal.int 7] (by decide)

/-- C8: the key-value extractor contributes one Record per block
exactly when the block has at least one valid key/value pair (the
`hasValidPair` flag is the disjunction of per-line validity; blocks
with none are dropped silently), and the spec's two-block example
extracts exactly its two Records in block order. -/
theorem extractKV_per_block :
    (∀ text : String,
      extractKeyValuePairs text =
        ((splitBlocks text).filter (fun b => trimS b ≠ "")).filterMap
          (fun b => if (blockEntry b).2 then some (blockEntry b).1 else none)) ∧
    (∀ b : String,
      (blockEntry b).2 = ((splitLines b).filter (fun l => trimS l ≠ "")).any lineValid) ∧
    extractKeyValuePairs "Name: Alice\nAge: 30\n\nName: Bob\nAge: 25" =
      [[("name", JVal.str "Alice"), ("age", JVal.str "30")],
       [("name", JVal.str "Bob"), ("age", JVal.str "25")]] := by
  refine ⟨?_, ?_, by decide⟩
  · intro text
    unfold extractKeyValuePairs
    rw [extractKV_fold_eq]
    simp
  · intro b
    simp only [blockEntry]
    rw [blockEntry_fold_flag]
    simp

/-- C9 (code bug): on a sequence whose first element is `null` —
`typeof null === 'object'` — the flattener routes `null` into
`Object.entries`, which throws a `TypeError` instead of returning a
Record, although `null` is a scalar the spec maps to the empty
string.  (The Lean model itself is total, witnessing termination.) -/
theorem flattenObject_null_item_throws :
    flattenObject (.obj [("a", .arr [JVal.null])]) "" = none ∧
    isObjLike JVal.null = true ∧
    isScalar JVal.null = true := by
  refine ⟨?_, by decide, by decide⟩
  simp [flattenObject, flattenEntries, flattenItems, isObjLike]

/-- C4 counterexample: the tabular path passes a raw number through to
the final output (`String()` is never applied there), and string
values are not trimmed by the core. -/
theorem core_string_invariant_cex :
    parseDocument "[[\"age\"],[30]]" = .ok [[("age", JVal.int 30)]] ∧
    isStrVal (JVal.int 30) = false ∧
    parseDocument "\x7b\"a\":\" x\"\x7d" = .ok [[("a", JVal.str " x")]] ∧
    trimS " x" ≠ " x" := by
  refine ⟨by decide, by decide, ?_, by decide⟩
  have hflat : flattenObject (.obj [("a", JVal.str " x")]) "" =
      some [("a", JVal.str " x")] :=
    flattenObject_flat_identity.1 [("a", JVal.str " x")] (by decide) (by decide)
  have hjson : jsonParse "\x7b\"a\":\" x\"\x7d" = some (.obj [("a", JVal.str " x")]) := by
    decide
  have hnorm : normalizeData (.obj [("a", JVal.str " x")]) =
      some [[("a", JVal.str " x")]] := by
    simp [normalizeData, mapOption, hflat]
  have hentries : entriesOfText "\x7b\"a\":\" x\"\x7d" = some [[("a", JVal.str " x")]] := by
    unfold entriesOfText
    rw [hjson]
    simp [hnorm]
  have htry : parseDocumentTry "\x7b\"a\":\" x\"\x7d" = .ok (mergeEntries [[("a", JVal.str " x")]]) := by
    unfold parseDocumentTry
    rw [hentries]
    simp
  unfold parseDocument
  rw [htry]
  decide

/-- C4 (amended): every value emitted by the flattening path (on
non-tabular input) or by the key-value extractor is a string, and the
merger preserves this; the tabular path may pass raw non-string cell
values through, and strings are not trimmed. -/
theorem core_string_values_amended :
    (∀ (data : JVal) (recs : List Record), isTabular data = false →
      normalizeData data = some recs → strValued recs) ∧
    (∀ text : String, strValued (extractKeyValuePairs text)) ∧
    (∀ recs : List Record, strValued recs → strValued (mergeEntries recs)) :=
  ⟨fun data recs ht h => normalizeData_strValued data recs ht h,
   extractKeyValuePairs_strValued,
   mergeEntries_strValued⟩

/-- Witness for the amended C4 at a concrete non-tabular input. -/
theorem core_string_values_amended_witness :
    strValued [[("value", JVal.str "5")]] :=
  core_string_values_amended.1 (.arr [JVal.int 5]) [[("value", JVal.str "5")]]
    (by decide) (by decide)
